import Mathlib

/-!
Shallow embedding of the `v-math` 3D geometry library (Vector and
Quaternion value types) over the real numbers, together with theorems
settling the specification claims.

Real-number components model the library's `number` fields; operations
that throw (`Quaternion.div`, `Quaternion.normalize`, and everything
built on them) return `Except String`.
-/

namespace VMath

/-- A 3D vector with real components, as in the source `Vector` class. -/
structure Vec3 where
  x : ℝ
  y : ℝ
  z : ℝ

/-- A quaternion with real components, as in the source `Quaternion` class. -/
structure Quat where
  a : ℝ
  i : ℝ
  j : ℝ
  k : ℝ

namespace Vec3

/-- `Vector.add`: componentwise sum. -/
noncomputable def add (v w : Vec3) : Vec3 :=
  ⟨v.x + w.x, v.y + w.y, v.z + w.z⟩

/-- `Vector.neg`: componentwise negation. -/
noncomputable def neg (v : Vec3) : Vec3 :=
  ⟨-v.x, -v.y, -v.z⟩

/-- `Vector.sub`: `this.add(v.neg())`. -/
noncomputable def sub (v w : Vec3) : Vec3 :=
  v.add w.neg

/-- `Vector.mul` applied to a Vector argument: componentwise product. -/
noncomputable def mulV (v w : Vec3) : Vec3 :=
  ⟨v.x * w.x, v.y * w.y, v.z * w.z⟩

/-- `Vector.mul` applied to a scalar: the scalar is broadcast to
`new Vector(a, a, a)` and multiplied componentwise. -/
noncomputable def mul (v : Vec3) (a : ℝ) : Vec3 :=
  v.mulV ⟨a, a, a⟩

/-- `Vector.mag`: Euclidean norm `sqrt(x*x + y*y + z*z)`. -/
noncomputable def mag (v : Vec3) : ℝ :=
  Real.sqrt (v.x * v.x + v.y * v.y + v.z * v.z)

/-- `Vector.norm`: zero vector when `mag() == 0`, otherwise componentwise
division by the magnitude. -/
noncomputable def norm (v : Vec3) : Vec3 :=
  if v.mag = 0 then ⟨0, 0, 0⟩
  else ⟨v.x / v.mag, v.y / v.mag, v.z / v.mag⟩

/-- `Vector.cross`: standard 3D cross product, middle component written
as `-(x*vz - z*vx)` exactly as in the source. -/
noncomputable def cross (v w : Vec3) : Vec3 :=
  ⟨v.y * w.z - v.z * w.y, -(v.x * w.z - v.z * w.x), v.x * w.y - v.y * w.x⟩

/-- `Vector.dot`: scalar dot product. -/
noncomputable def dot (v w : Vec3) : ℝ :=
  v.x * w.x + v.y * w.y + v.z * w.z

/-- `Vector.angle_between`: 0 when the product of magnitudes is 0,
otherwise `acos` of the dot/mag ratio clamped to `[-1, 1]`. -/
noncomputable def angle_between (v w : Vec3) : ℝ :=
  let denominator := v.mag * w.mag
  if denominator = 0 then 0
  else Real.arccos (min (max (v.dot w / denominator) (-1)) 1)

/-- `Vector.project`: `v.norm().mul(cos(angle_between(v)) * this.mag())`. -/
noncomputable def project (v w : Vec3) : Vec3 :=
  let theta := v.angle_between w
  w.norm.mul (Real.cos theta * v.mag)

/-- `Vector.planar_project`: `this.add(origin.sub(this).project(normal))`. -/
noncomputable def planar_project (v origin normal : Vec3) : Vec3 :=
  let diff := origin.sub v
  v.add (diff.project normal)

/-- `Vector.distance_from_line` (from the compiled JS variant): distance
from the three pairwise distances, radicand clamped to `≥ 0`. -/
noncomputable def distance_from_line (v a b : Vec3) : ℝ :=
  let dist_a := (v.sub a).mag
  let dist_b := (v.sub b).mag
  let dist := (a.sub b).mag
  Real.sqrt (max 0 (dist_a * dist_a -
    ((dist_b * dist_b - dist_a * dist_a - dist * dist) / (-2 * dist)) ^ 2))

end Vec3

namespace Quat

/-- `Quaternion.conjugate`: negate `i, j, k`, keep `a`. -/
noncomputable def conjugate (q : Quat) : Quat :=
  ⟨q.a, -q.i, -q.j, -q.k⟩

/-- `Quaternion.mul`: componentwise scale by a scalar. -/
noncomputable def mul (q : Quat) (a : ℝ) : Quat :=
  ⟨q.a * a, q.i * a, q.j * a, q.k * a⟩

/-- `Quaternion.div`: throws "Cannot divide by 0." when the divisor is 0,
otherwise componentwise division. -/
noncomputable def div (q : Quat) (a : ℝ) : Except String Quat :=
  if a = 0 then .error "Cannot divide by 0."
  else .ok ⟨q.a / a, q.i / a, q.j / a, q.k / a⟩

/-- `Quaternion.mag`: Euclidean 4-norm. -/
noncomputable def mag (q : Quat) : ℝ :=
  Real.sqrt (q.a * q.a + q.i * q.i + q.j * q.j + q.k * q.k)

/-- `Quaternion.normalize`: `this.div(this.mag())`. -/
noncomputable def normalize (q : Quat) : Except String Quat :=
  q.div q.mag

/-- `Quaternion.quaternion_multiply` (alias `q_mul`): Hamilton product. -/
noncomputable def quaternion_multiply (p q : Quat) : Quat :=
  ⟨p.a * q.a - p.i * q.i - p.j * q.j - p.k * q.k,
   p.a * q.i + p.i * q.a + p.j * q.k - p.k * q.j,
   p.a * q.j - p.i * q.k + p.j * q.a + p.k * q.i,
   p.a * q.k + p.i * q.j - p.j * q.i + p.k * q.a⟩

/-- `Quaternion.q_mul`: alias for `quaternion_multiply`. -/
noncomputable def q_mul (p q : Quat) : Quat :=
  p.quaternion_multiply q

/-- `Quaternion.from_axis_rotation`: unit quaternion from an axis (normalized
internally via `Vector.norm`) and an angle, re-normalized defensively. -/
noncomputable def from_axis_rotation (axis : Vec3) (angle : ℝ) : Except String Quat :=
  let a := Real.cos (angle / 2)
  let s := Real.sin (angle / 2)
  let u := axis.norm
  (Quat.mk a (u.x * s) (u.y * s) (u.z * s)).normalize

end Quat

namespace Vec3

/-- `Vector.quaternion_rotate`: normalize `q`, lift `this` to the pure
quaternion `p = (0, x, y, z)`, return the `i, j, k` parts of
`q * p * conjugate(q)`. -/
noncomputable def quaternion_rotate (v : Vec3) (q : Quat) : Except String Vec3 :=
  match q.normalize with
  | .error e => .error e
  | .ok qn =>
    let p := Quat.mk 0 v.x v.y v.z
    let c := qn.conjugate
    let r := (qn.q_mul p).q_mul c
    .ok ⟨r.i, r.j, r.k⟩

/-- `Vector.rotate_axis`: rotate via `from_axis_rotation` and
`quaternion_rotate` (`q_rotate` is an alias of the latter). -/
noncomputable def rotate_axis (v axis : Vec3) (angle : ℝ) : Except String Vec3 :=
  match Quat.from_axis_rotation axis angle with
  | .error e => .error e
  | .ok q => v.quaternion_rotate q

/-- `Vector.project_2d`: planar-project, then read off coordinates along
`y_axis` and along `y_axis` rotated 90 degrees about `normal`. -/
noncomputable def project_2d (v origin normal y_axis : Vec3) : Except String Vec3 :=
  let proj := (v.planar_project origin normal).sub origin
  match y_axis.rotate_axis normal (Real.pi / 2) with
  | .error e => .error e
  | .ok r =>
    let theta := proj.angle_between y_axis
    let theta2 := proj.angle_between r
    let m := proj.mag
    .ok ⟨Real.cos theta2 * m, Real.cos theta * m, 0⟩

end Vec3

/-! ### Helper lemmas -/

theorem Vec3.mag_nonneg (v : Vec3) : 0 ≤ v.mag :=
  Real.sqrt_nonneg _

theorem Vec3.mul_self_mag (v : Vec3) :
    v.mag * v.mag = v.x * v.x + v.y * v.y + v.z * v.z :=
  Real.mul_self_sqrt (add_nonneg (add_nonneg (mul_self_nonneg v.x)
    (mul_self_nonneg v.y)) (mul_self_nonneg v.z))

theorem Vec3.magSq_ne_zero (v : Vec3) (h : v.mag ≠ 0) :
    v.x * v.x + v.y * v.y + v.z * v.z ≠ 0 := by
  intro h0
  exact h (by simp [Vec3.mag, h0])

theorem Vec3.norm_mag_one (v : Vec3) (h : v.mag ≠ 0) : v.norm.mag = 1 := by
  have hS : v.x * v.x + v.y * v.y + v.z * v.z ≠ 0 := v.magSq_ne_zero h
  rw [Vec3.norm, if_neg h]
  show Real.sqrt (v.x / v.mag * (v.x / v.mag) + v.y / v.mag * (v.y / v.mag) +
    v.z / v.mag * (v.z / v.mag)) = 1
  have hsum : v.x / v.mag * (v.x / v.mag) + v.y / v.mag * (v.y / v.mag) +
      v.z / v.mag * (v.z / v.mag) =
      (v.x * v.x + v.y * v.y + v.z * v.z) / (v.mag * v.mag) := by
    field_simp
  rw [hsum, v.mul_self_mag, div_self hS, Real.sqrt_one]

/-- Squared 4-norm of a quaternion; mathematical abbreviation used only in
helper lemmas and proofs (`mag` is its square root). -/
noncomputable def Quat.normSq (q : Quat) : ℝ :=
  q.a * q.a + q.i * q.i + q.j * q.j + q.k * q.k

theorem Quat.mag_eq_one_of_normSq (q : Quat) (h : q.normSq = 1) : q.mag = 1 := by
  rw [Quat.mag, show q.a * q.a + q.i * q.i + q.j * q.j + q.k * q.k = 1 from h,
    Real.sqrt_one]

theorem Quat.conj_conj (q : Quat) : q.conjugate.conjugate = q := by
  simp [Quat.conjugate]

theorem Quat.normSq_conjugate (q : Quat) : q.conjugate.normSq = q.normSq := by
  simp only [Quat.normSq, Quat.conjugate]
  ring

theorem Quat.normalize_of_mag_one (q : Quat) (h : q.mag = 1) :
    q.normalize = .ok q := by
  rw [Quat.normalize, Quat.div, h, if_neg one_ne_zero]
  simp [div_one]

/-- Reduction of `Vector.quaternion_rotate` when the normalization succeeds. -/
theorem Vec3.quaternion_rotate_ok (v : Vec3) (q qn : Quat)
    (h : q.normalize = .ok qn) :
    v.quaternion_rotate q =
      .ok ⟨((qn.q_mul ⟨0, v.x, v.y, v.z⟩).q_mul qn.conjugate).i,
           ((qn.q_mul ⟨0, v.x, v.y, v.z⟩).q_mul qn.conjugate).j,
           ((qn.q_mul ⟨0, v.x, v.y, v.z⟩).q_mul qn.conjugate).k⟩ := by
  unfold Vec3.quaternion_rotate
  rw [h]

/-- Reduction of `Vector.quaternion_rotate` when the normalization fails. -/
theorem Vec3.quaternion_rotate_err (v : Vec3) (q : Quat) (e : String)
    (h : q.normalize = .error e) :
    v.quaternion_rotate q = .error e := by
  unfold Vec3.quaternion_rotate
  rw [h]

theorem Vec3.quaternion_rotate_unit (v : Vec3) (q : Quat) (h : q.normSq = 1) :
    v.quaternion_rotate q =
      .ok ⟨((q.q_mul ⟨0, v.x, v.y, v.z⟩).q_mul q.conjugate).i,
           ((q.q_mul ⟨0, v.x, v.y, v.z⟩).q_mul q.conjugate).j,
           ((q.q_mul ⟨0, v.x, v.y, v.z⟩).q_mul q.conjugate).k⟩ :=
  v.quaternion_rotate_ok q q (q.normalize_of_mag_one (q.mag_eq_one_of_normSq h))

/-- Reduction of `Vector.rotate_axis` when the axis quaternion is built. -/
theorem Vec3.rotate_axis_ok (v axis : Vec3) (angle : ℝ) (q : Quat)
    (h : Quat.from_axis_rotation axis angle = .ok q) :
    v.rotate_axis axis angle = v.quaternion_rotate q := by
  unfold Vec3.rotate_axis
  rw [h]

/-- Reduction of `Vector.rotate_axis` when the axis quaternion fails. -/
theorem Vec3.rotate_axis_err (v axis : Vec3) (angle : ℝ) (e : String)
    (h : Quat.from_axis_rotation axis angle = .error e) :
    v.rotate_axis axis angle = .error e := by
  unfold Vec3.rotate_axis
  rw [h]

/-- The real part of `q * (0,x,y,z) * conjugate(q)` vanishes identically. -/
theorem Quat.sandwich_a_zero (q : Quat) (x y z : ℝ) :
    ((q.q_mul ⟨0, x, y, z⟩).q_mul q.conjugate).a = 0 := by
  simp only [Quat.q_mul, Quat.quaternion_multiply, Quat.conjugate]
  ring

/-- Undoing a unit-quaternion sandwich with the conjugate sandwich. -/
theorem Quat.sandwich_inv (q p : Quat) (h : q.normSq = 1) :
    (q.conjugate.q_mul ((q.q_mul p).q_mul q.conjugate)).q_mul q = p := by
  obtain ⟨qa, qi, qj, qk⟩ := q
  obtain ⟨b1, b2, b3, b4⟩ := p
  have h' : qa * qa + qi * qi + qj * qj + qk * qk = 1 := h
  simp only [Quat.q_mul, Quat.quaternion_multiply, Quat.conjugate, Quat.mk.injEq]
  refine ⟨?_, ?_, ?_, ?_⟩
  · linear_combination (b1 * (qa * qa + qi * qi + qj * qj + qk * qk + 1)) * h'
  · linear_combination (b2 * (qa * qa + qi * qi + qj * qj + qk * qk + 1)) * h'
  · linear_combination (b3 * (qa * qa + qi * qi + qj * qj + qk * qk + 1)) * h'
  · linear_combination (b4 * (qa * qa + qi * qi + qj * qj + qk * qk + 1)) * h'

theorem Vec3.norm_sumsq (v : Vec3) (h : v.mag ≠ 0) :
    v.norm.x * v.norm.x + v.norm.y * v.norm.y + v.norm.z * v.norm.z = 1 := by
  have h1 := v.norm.mul_self_mag
  rw [v.norm_mag_one h, mul_one] at h1
  exact h1.symm

theorem Vec3.eq_zero_of_mag_eq_zero (v : Vec3) (h : v.mag = 0) :
    v = ⟨0, 0, 0⟩ := by
  obtain ⟨x, y, z⟩ := v
  have hs : x * x + y * y + z * z = 0 := by
    have hm := Vec3.mul_self_mag ⟨x, y, z⟩
    rw [h] at hm
    simpa using hm.symm
  have hx : x = 0 := by nlinarith [mul_self_nonneg x, mul_self_nonneg y, mul_self_nonneg z]
  have hy : y = 0 := by nlinarith [mul_self_nonneg x, mul_self_nonneg y, mul_self_nonneg z]
  have hz : z = 0 := by nlinarith [mul_self_nonneg x, mul_self_nonneg y, mul_self_nonneg z]
  simp [hx, hy, hz]

/-- Evaluation of `from_axis_rotation` on an axis of nonzero magnitude: the
built quaternion already has magnitude 1, so the defensive re-normalization
returns it unchanged. -/
theorem Quat.from_axis_eq (axis : Vec3) (angle : ℝ) (h : axis.mag ≠ 0) :
    Quat.from_axis_rotation axis angle =
      .ok ⟨Real.cos (angle / 2), axis.norm.x * Real.sin (angle / 2),
           axis.norm.y * Real.sin (angle / 2),
           axis.norm.z * Real.sin (angle / 2)⟩ := by
  have hu := axis.norm_sumsq h
  have hred : Quat.from_axis_rotation axis angle =
      (Quat.mk (Real.cos (angle / 2)) (axis.norm.x * Real.sin (angle / 2))
        (axis.norm.y * Real.sin (angle / 2))
        (axis.norm.z * Real.sin (angle / 2))).normalize := rfl
  have hsum : Real.cos (angle / 2) * Real.cos (angle / 2) +
      axis.norm.x * Real.sin (angle / 2) * (axis.norm.x * Real.sin (angle / 2)) +
      axis.norm.y * Real.sin (angle / 2) * (axis.norm.y * Real.sin (angle / 2)) +
      axis.norm.z * Real.sin (angle / 2) * (axis.norm.z * Real.sin (angle / 2)) = 1 := by
    have h1 : Real.sin (angle / 2) ^ 2 + Real.cos (angle / 2) ^ 2 = 1 :=
      Real.sin_sq_add_cos_sq (angle / 2)
    linear_combination (Real.sin (angle / 2) * Real.sin (angle / 2)) * hu + h1
  have hmag : (Quat.mk (Real.cos (angle / 2)) (axis.norm.x * Real.sin (angle / 2))
      (axis.norm.y * Real.sin (angle / 2))
      (axis.norm.z * Real.sin (angle / 2))).mag = 1 := by
    rw [Quat.mag]
    dsimp only
    rw [hsum, Real.sqrt_one]
  rw [hred, Quat.normalize_of_mag_one _ hmag]

/-- Rotating back by the conjugate quaternion recovers the original vector. -/
theorem Vec3.roundtrip_core (v : Vec3) (q : Quat) (h : q.normSq = 1) :
    (Vec3.mk ((q.q_mul ⟨0, v.x, v.y, v.z⟩).q_mul q.conjugate).i
             ((q.q_mul ⟨0, v.x, v.y, v.z⟩).q_mul q.conjugate).j
             ((q.q_mul ⟨0, v.x, v.y, v.z⟩).q_mul q.conjugate).k).quaternion_rotate
      q.conjugate = .ok v := by
  have hc : q.conjugate.normSq = 1 := by rw [q.normSq_conjugate]; exact h
  rw [Vec3.quaternion_rotate_unit _ _ hc]
  dsimp only
  rw [Quat.conj_conj]
  have ha : ((q.q_mul ⟨0, v.x, v.y, v.z⟩).q_mul q.conjugate).a = 0 :=
    q.sandwich_a_zero v.x v.y v.z
  set r := (q.q_mul ⟨0, v.x, v.y, v.z⟩).q_mul q.conjugate with hr
  have hp : (⟨0, r.i, r.j, r.k⟩ : Quat) = r := by
    rw [← ha]
  rw [hp, hr, Quat.sandwich_inv q _ h]

/-! ### Zero-axis lemmas -/

theorem Vec3.mag_zero_vec : (⟨0, 0, 0⟩ : Vec3).mag = 0 := by
  simp [Vec3.mag]

theorem Vec3.norm_zero_vec : (⟨0, 0, 0⟩ : Vec3).norm = ⟨0, 0, 0⟩ := by
  rw [Vec3.norm, if_pos Vec3.mag_zero_vec]

/-- On the zero axis, `from_axis_rotation` builds the scalar quaternion
`(cos(angle/2), 0, 0, 0)` and normalizes it. -/
theorem Quat.from_axis_rotation_zero_axis (angle : ℝ) :
    Quat.from_axis_rotation ⟨0, 0, 0⟩ angle =
      (Quat.mk (Real.cos (angle / 2)) 0 0 0).normalize := by
  have hred : Quat.from_axis_rotation ⟨0, 0, 0⟩ angle =
      (Quat.mk (Real.cos (angle / 2))
        ((Vec3.norm ⟨0, 0, 0⟩).x * Real.sin (angle / 2))
        ((Vec3.norm ⟨0, 0, 0⟩).y * Real.sin (angle / 2))
        ((Vec3.norm ⟨0, 0, 0⟩).z * Real.sin (angle / 2))).normalize := rfl
  rw [hred, Vec3.norm_zero_vec]
  norm_num

theorem Quat.mag_scalar (c : ℝ) : (Quat.mk c 0 0 0).mag = |c| := by
  rw [Quat.mag]
  have hc : c * c + 0 * 0 + 0 * 0 + 0 * 0 = c * c := by ring
  rw [hc, Real.sqrt_mul_self_eq_abs]

theorem Quat.normalize_scalar_err (c : ℝ) (hc : c = 0) :
    (Quat.mk c 0 0 0).normalize = .error "Cannot divide by 0." := by
  rw [Quat.normalize, Quat.div, if_pos]
  rw [Quat.mag_scalar, hc, abs_zero]

theorem Quat.normalize_scalar_ok (c : ℝ) (hc : c ≠ 0) :
    (Quat.mk c 0 0 0).normalize = .ok ⟨c / |c|, 0, 0, 0⟩ := by
  have habs : |c| ≠ 0 := abs_ne_zero.mpr hc
  rw [Quat.normalize, Quat.div, Quat.mag_scalar, if_neg habs]
  norm_num

theorem Quat.sign_mul_self (c : ℝ) (hc : c ≠ 0) :
    c / |c| * (c / |c|) = 1 := by
  rw [div_mul_div_comm, abs_mul_abs_self]
  exact div_self (mul_ne_zero hc hc)

theorem Quat.mag_sign (c : ℝ) (hc : c ≠ 0) :
    Quat.mag ⟨c / |c|, 0, 0, 0⟩ = 1 := by
  rw [Quat.mag_scalar, abs_div, abs_abs, div_self (abs_ne_zero.mpr hc)]

/-- Rotating about the zero axis with `cos(angle/2) = 0` raises the
divide-by-zero error. -/
theorem Vec3.rotate_axis_zero_axis_err (v : Vec3) (angle : ℝ)
    (hc : Real.cos (angle / 2) = 0) :
    v.rotate_axis ⟨0, 0, 0⟩ angle = .error "Cannot divide by 0." :=
  v.rotate_axis_err _ _ _ (by
    rw [Quat.from_axis_rotation_zero_axis, Quat.normalize_scalar_err _ hc])

/-- Rotating about the zero axis with `cos(angle/2) ≠ 0` returns the vector
unchanged: the degenerate quaternion `(±1, 0, 0, 0)` acts as the identity. -/
theorem Vec3.rotate_axis_zero_axis_ok (v : Vec3) (angle : ℝ)
    (hc : Real.cos (angle / 2) ≠ 0) :
    v.rotate_axis ⟨0, 0, 0⟩ angle = .ok v := by
  obtain ⟨x, y, z⟩ := v
  have he := Quat.sign_mul_self (Real.cos (angle / 2)) hc
  have hq : Quat.normSq ⟨Real.cos (angle / 2) / |Real.cos (angle / 2)|,
      0, 0, 0⟩ = 1 := by
    simp only [Quat.normSq]
    linear_combination he
  rw [Vec3.rotate_axis_ok _ _ _ _ (by
    rw [Quat.from_axis_rotation_zero_axis, Quat.normalize_scalar_ok _ hc])]
  rw [Vec3.quaternion_rotate_unit _ _ hq]
  refine congrArg Except.ok ?_
  simp only [Quat.q_mul, Quat.quaternion_multiply, Quat.conjugate, Vec3.mk.injEq]
  refine ⟨?_, ?_, ?_⟩
  · linear_combination x * he
  · linear_combination y * he
  · linear_combination z * he

/-- Reduction of `Vector.project_2d` when the internal 90-degree rotation of
`y_axis` about `normal` succeeds. -/
theorem Vec3.project_2d_ok (v origin normal y_axis r : Vec3)
    (h : y_axis.rotate_axis normal (Real.pi / 2) = .ok r) :
    v.project_2d origin normal y_axis =
      .ok ⟨Real.cos (((v.planar_project origin normal).sub origin).angle_between r) *
             ((v.planar_project origin normal).sub origin).mag,
           Real.cos (((v.planar_project origin normal).sub origin).angle_between y_axis) *
             ((v.planar_project origin normal).sub origin).mag, 0⟩ := by
  unfold Vec3.project_2d
  rw [h]

/-- Spec-side perpendicular distance from a point to the line through `a`
and `b`, by the standard cross-product formula; used as the reference value
for the refinement claim about `distance_from_line`. -/
noncomputable def perp_dist_spec (p a b : Vec3) : ℝ :=
  ((p.sub a).cross (b.sub a)).mag / (b.sub a).mag

theorem Vec3.mag_sub_comm (a b : Vec3) : (b.sub a).mag = (a.sub b).mag := by
  simp only [Vec3.mag, Vec3.sub, Vec3.add, Vec3.neg]
  congr 1
  ring

theorem Vec3.sub_sumsq_ne_zero (a b : Vec3) (h : a ≠ b) :
    (a.x + -b.x) * (a.x + -b.x) + (a.y + -b.y) * (a.y + -b.y) +
      (a.z + -b.z) * (a.z + -b.z) ≠ 0 := by
  intro h0
  apply h
  have hx : a.x + -b.x = 0 := by
    nlinarith [mul_self_nonneg (a.x + -b.x), mul_self_nonneg (a.y + -b.y), mul_self_nonneg (a.z + -b.z)]
  have hy : a.y + -b.y = 0 := by
    nlinarith [mul_self_nonneg (a.x + -b.x), mul_self_nonneg (a.y + -b.y), mul_self_nonneg (a.z + -b.z)]
  have hz : a.z + -b.z = 0 := by
    nlinarith [mul_self_nonneg (a.x + -b.x), mul_self_nonneg (a.y + -b.y), mul_self_nonneg (a.z + -b.z)]
  obtain ⟨x1, y1, z1⟩ := a
  obtain ⟨x2, y2, z2⟩ := b
  simp only [Vec3.mk.injEq]
  refine ⟨by linarith, by linarith, by linarith⟩

/-- Arithmetic core of the distance-from-line computation: with the three
squared distances satisfying the law-of-cosines and Lagrange identities, the
clamped-radicand expression collapses to the quotient of square roots. -/
theorem dist_core (sa sb sd cq d : ℝ) (hsa : 0 ≤ sa) (hsb : 0 ≤ sb)
    (hsd0 : 0 ≤ sd) (hsd : sd ≠ 0) (hcq : 0 ≤ cq)
    (hlag : sa * sd - d ^ 2 = cq) (hcos : sb - sa - sd = -2 * d) :
    Real.sqrt (max 0 (Real.sqrt sa * Real.sqrt sa -
      ((Real.sqrt sb * Real.sqrt sb - Real.sqrt sa * Real.sqrt sa -
        Real.sqrt sd * Real.sqrt sd) / (-2 * Real.sqrt sd)) ^ 2)) =
    Real.sqrt cq / Real.sqrt sd := by
  have ha := Real.mul_self_sqrt hsa
  have hb := Real.mul_self_sqrt hsb
  have hd := Real.mul_self_sqrt hsd0
  have hpos : 0 < sd := lt_of_le_of_ne hsd0 (Ne.symm hsd)
  have hrad : Real.sqrt sa * Real.sqrt sa -
      ((Real.sqrt sb * Real.sqrt sb - Real.sqrt sa * Real.sqrt sa -
        Real.sqrt sd * Real.sqrt sd) / (-2 * Real.sqrt sd)) ^ 2 = cq / sd := by
    rw [ha, hb, hd, hcos,
      mul_div_mul_left d (Real.sqrt sd) (by norm_num : (-2 : ℝ) ≠ 0), div_pow,
      show Real.sqrt sd ^ 2 = sd from by rw [sq]; exact hd]
    field_simp
    linear_combination hlag
  rw [hrad, max_eq_right (div_nonneg hcq (le_of_lt hpos))]
  exact Real.sqrt_div hcq sd

/-! ### Claims -/

/-- C1: the Hamilton product follows the standard formula componentwise, and
`Quaternion(1,0,0,0) * Quaternion(0,1,0,0) = Quaternion(0,1,0,0)`. -/
theorem C1_quaternion_multiply_hamilton (p q : Quat) :
    p.quaternion_multiply q =
      ⟨p.a * q.a - p.i * q.i - p.j * q.j - p.k * q.k,
       p.a * q.i + p.i * q.a + p.j * q.k - p.k * q.j,
       p.a * q.j - p.i * q.k + p.j * q.a + p.k * q.i,
       p.a * q.k + p.i * q.j - p.j * q.i + p.k * q.a⟩ ∧
    Quat.quaternion_multiply ⟨1, 0, 0, 0⟩ ⟨0, 1, 0, 0⟩ = ⟨0, 1, 0, 0⟩ := by
  constructor
  · rfl
  · simp [Quat.quaternion_multiply]

/-- C2: for a quaternion of nonzero magnitude, `Vector.quaternion_rotate`
returns the `i, j, k` parts of the sandwich product `qn * p * conjugate(qn)`,
where `qn` is the normalized quaternion (componentwise division by the
magnitude) and `p = (0, x, y, z)`, with `qn` on the left and its conjugate
on the right. -/
theorem C2_quaternion_rotate_sandwich (v : Vec3) (q : Quat) (h : q.mag ≠ 0) :
    ∃ qn, q.normalize = Except.ok qn ∧
      qn = ⟨q.a / q.mag, q.i / q.mag, q.j / q.mag, q.k / q.mag⟩ ∧
      v.quaternion_rotate q =
        Except.ok ⟨((qn.q_mul ⟨0, v.x, v.y, v.z⟩).q_mul qn.conjugate).i,
                   ((qn.q_mul ⟨0, v.x, v.y, v.z⟩).q_mul qn.conjugate).j,
                   ((qn.q_mul ⟨0, v.x, v.y, v.z⟩).q_mul qn.conjugate).k⟩ := by
  have hn : q.normalize =
      .ok ⟨q.a / q.mag, q.i / q.mag, q.j / q.mag, q.k / q.mag⟩ := by
    rw [Quat.normalize, Quat.div, if_neg h]
  exact ⟨_, hn, rfl, v.quaternion_rotate_ok q _ hn⟩

/-- C2 witness: at `q = (1,0,0,0)` (nonzero magnitude) and `v = (1,2,3)` the
rotation reduces to the sandwich product. -/
theorem C2_quaternion_rotate_sandwich_witness :
    Quat.mag ⟨1, 0, 0, 0⟩ ≠ 0 ∧
      ∃ qn, Quat.normalize ⟨1, 0, 0, 0⟩ = Except.ok qn ∧
        qn = ⟨1 / Quat.mag ⟨1, 0, 0, 0⟩, 0 / Quat.mag ⟨1, 0, 0, 0⟩,
              0 / Quat.mag ⟨1, 0, 0, 0⟩, 0 / Quat.mag ⟨1, 0, 0, 0⟩⟩ ∧
        Vec3.quaternion_rotate ⟨1, 2, 3⟩ ⟨1, 0, 0, 0⟩ =
          Except.ok ⟨((qn.q_mul ⟨0, 1, 2, 3⟩).q_mul qn.conjugate).i,
                     ((qn.q_mul ⟨0, 1, 2, 3⟩).q_mul qn.conjugate).j,
                     ((qn.q_mul ⟨0, 1, 2, 3⟩).q_mul qn.conjugate).k⟩ := by
  have h : Quat.mag ⟨1, 0, 0, 0⟩ ≠ 0 := by
    rw [Quat.mag, Real.sqrt_ne_zero']
    norm_num
  exact ⟨h, C2_quaternion_rotate_sandwich ⟨1, 2, 3⟩ ⟨1, 0, 0, 0⟩ h⟩

/-- C3: rotating a vector by an angle about a nonzero axis and then by the
negated angle about the same axis recovers the vector exactly (in the
real-number model the floating tolerance becomes equality). -/
theorem C3_rotate_axis_roundtrip (v axis : Vec3) (angle : ℝ)
    (h : axis ≠ ⟨0, 0, 0⟩) :
    ∃ w, v.rotate_axis axis angle = Except.ok w ∧
      w.rotate_axis axis (-angle) = Except.ok v := by
  have hm : axis.mag ≠ 0 := fun h0 => h (axis.eq_zero_of_mag_eq_zero h0)
  have hu := axis.norm_sumsq hm
  set qA : Quat := ⟨Real.cos (angle / 2), axis.norm.x * Real.sin (angle / 2),
    axis.norm.y * Real.sin (angle / 2),
    axis.norm.z * Real.sin (angle / 2)⟩ with hqA
  have h1 : Quat.from_axis_rotation axis angle = .ok qA :=
    Quat.from_axis_eq axis angle hm
  have hq : qA.normSq = 1 := by
    rw [hqA]
    simp only [Quat.normSq]
    have h2 : Real.sin (angle / 2) ^ 2 + Real.cos (angle / 2) ^ 2 = 1 :=
      Real.sin_sq_add_cos_sq (angle / 2)
    linear_combination (Real.sin (angle / 2) * Real.sin (angle / 2)) * hu + h2
  have hrot1 : v.rotate_axis axis angle =
      .ok ⟨((qA.q_mul ⟨0, v.x, v.y, v.z⟩).q_mul qA.conjugate).i,
           ((qA.q_mul ⟨0, v.x, v.y, v.z⟩).q_mul qA.conjugate).j,
           ((qA.q_mul ⟨0, v.x, v.y, v.z⟩).q_mul qA.conjugate).k⟩ := by
    rw [v.rotate_axis_ok axis angle qA h1, v.quaternion_rotate_unit qA hq]
  refine ⟨_, hrot1, ?_⟩
  have h2 : Quat.from_axis_rotation axis (-angle) = .ok qA.conjugate := by
    rw [Quat.from_axis_eq axis (-angle) hm]
    congr 1
    rw [hqA]
    simp only [Quat.conjugate]
    rw [neg_div, Real.cos_neg, Real.sin_neg]
    simp [mul_neg]
  rw [Vec3.rotate_axis_ok _ axis (-angle) qA.conjugate h2]
  exact v.roundtrip_core qA hq

/-- C3 witness: at `v = (1,2,3)`, the nonzero axis `(0,0,1)` and angle 0 the
round trip recovers the vector. -/
theorem C3_rotate_axis_roundtrip_witness :
    (⟨0, 0, 1⟩ : Vec3) ≠ ⟨0, 0, 0⟩ ∧
      ∃ w, Vec3.rotate_axis ⟨1, 2, 3⟩ ⟨0, 0, 1⟩ 0 = Except.ok w ∧
        w.rotate_axis ⟨0, 0, 1⟩ (-0) = Except.ok ⟨1, 2, 3⟩ := by
  have h : (⟨0, 0, 1⟩ : Vec3) ≠ ⟨0, 0, 0⟩ := by
    intro h0
    have := congrArg Vec3.z h0
    norm_num at this
  exact ⟨h, C3_rotate_axis_roundtrip ⟨1, 2, 3⟩ ⟨0, 0, 1⟩ 0 h⟩

/-- C4: `Vector.norm` returns a unit vector in the direction of `v` (a
positive scalar multiple of `v` of magnitude 1) when `v.mag()` is nonzero,
and the zero vector (no error) when `v.mag()` is 0. -/
theorem C4_norm_unit_or_zero (v : Vec3) :
    (v.mag = 0 → v.norm = ⟨0, 0, 0⟩) ∧
    (v.mag ≠ 0 →
      v.norm.mag = 1 ∧ v.norm = v.mul (1 / v.mag) ∧ 0 < 1 / v.mag) := by
  refine ⟨fun h => by rw [Vec3.norm, if_pos h], fun h => ?_⟩
  refine ⟨v.norm_mag_one h, ?_, ?_⟩
  · rw [Vec3.norm, if_neg h]
    simp [Vec3.mul, Vec3.mulV, div_eq_mul_inv]
  · exact one_div_pos.mpr (lt_of_le_of_ne v.mag_nonneg (Ne.symm h))

/-- C4 witness: at `v = (3,4,0)` the magnitude is nonzero and the
normalized vector has magnitude 1. -/
theorem C4_norm_unit_or_zero_witness :
    Vec3.mag ⟨3, 4, 0⟩ ≠ 0 ∧ (Vec3.norm ⟨3, 4, 0⟩).mag = 1 := by
  have h : Vec3.mag ⟨3, 4, 0⟩ ≠ 0 := by
    rw [Vec3.mag, Real.sqrt_ne_zero']
    norm_num
  exact ⟨h, ((C4_norm_unit_or_zero ⟨3, 4, 0⟩).2 h).1⟩

/-- C5: `Quaternion.div(a)` errors exactly when `a = 0` and otherwise
returns the componentwise quotient; `normalize` errors exactly when the
magnitude is 0; `Quaternion(0,0,0,0).normalize()` fails with the
divide-by-zero error. -/
theorem C5_div_normalize_errors (q : Quat) (a : ℝ) :
    (a = 0 → q.div a = .error "Cannot divide by 0.") ∧
    (a ≠ 0 → q.div a = .ok ⟨q.a / a, q.i / a, q.j / a, q.k / a⟩) ∧
    (q.mag = 0 → q.normalize = .error "Cannot divide by 0.") ∧
    (q.mag ≠ 0 →
      q.normalize = .ok ⟨q.a / q.mag, q.i / q.mag, q.j / q.mag, q.k / q.mag⟩) ∧
    Quat.normalize ⟨0, 0, 0, 0⟩ = .error "Cannot divide by 0." := by
  refine ⟨fun h => by rw [Quat.div, if_pos h],
          fun h => by rw [Quat.div, if_neg h],
          fun h => by rw [Quat.normalize, Quat.div, if_pos h],
          fun h => by rw [Quat.normalize, Quat.div, if_neg h], ?_⟩
  have h0 : Quat.mag ⟨0, 0, 0, 0⟩ = 0 := by
    simp [Quat.mag]
  rw [Quat.normalize, Quat.div, if_pos h0]

/-- C5 witness: dividing `(1,2,3,4)` by the nonzero scalar 1 succeeds with
the componentwise quotient. -/
theorem C5_div_normalize_errors_witness :
    (1 : ℝ) ≠ 0 ∧
      Quat.div ⟨1, 2, 3, 4⟩ 1 = .ok ⟨1 / 1, 2 / 1, 3 / 1, 4 / 1⟩ :=
  ⟨one_ne_zero, (C5_div_normalize_errors ⟨1, 2, 3, 4⟩ 1).2.1 one_ne_zero⟩

/-- C8: `angle_between` always lies in `[0, π]`; it is 0 when either
magnitude is 0, and otherwise is `acos` of the dot/mag ratio clamped to
`[-1, 1]`. -/
theorem C8_angle_between_range (u v : Vec3) :
    (0 ≤ u.angle_between v ∧ u.angle_between v ≤ Real.pi) ∧
    (u.mag = 0 ∨ v.mag = 0 → u.angle_between v = 0) ∧
    (u.mag ≠ 0 → v.mag ≠ 0 →
      u.angle_between v =
        Real.arccos (min (max (u.dot v / (u.mag * v.mag)) (-1)) 1)) := by
  refine ⟨?_, fun h => ?_, fun hu hv => ?_⟩
  · rw [Vec3.angle_between]
    by_cases hd : u.mag * v.mag = 0
    · simp only [hd, if_pos rfl]
      exact ⟨le_refl 0, le_of_lt Real.pi_pos⟩
    · simp only [hd, if_neg hd]
      exact ⟨Real.arccos_nonneg _, Real.arccos_le_pi _⟩
  · have hd : u.mag * v.mag = 0 := by
      rcases h with h | h <;> simp [h]
    simp [Vec3.angle_between, hd]
  · have hd : u.mag * v.mag ≠ 0 := mul_ne_zero hu hv
    simp [Vec3.angle_between, hd]

/-- C8 witness: at `u = v = (1,0,0)` both magnitudes are nonzero and the
angle equals `acos` of the clamped ratio. -/
theorem C8_angle_between_range_witness :
    Vec3.mag ⟨1, 0, 0⟩ ≠ 0 ∧
      Vec3.angle_between ⟨1, 0, 0⟩ ⟨1, 0, 0⟩ =
        Real.arccos (min (max (Vec3.dot ⟨1, 0, 0⟩ ⟨1, 0, 0⟩ /
          (Vec3.mag ⟨1, 0, 0⟩ * Vec3.mag ⟨1, 0, 0⟩)) (-1)) 1) := by
  have h : Vec3.mag ⟨1, 0, 0⟩ ≠ 0 := by
    rw [Vec3.mag, Real.sqrt_ne_zero']
    norm_num
  exact ⟨h, (C8_angle_between_range ⟨1, 0, 0⟩ ⟨1, 0, 0⟩).2.2 h h⟩

/-- C6 counterexample: the claim "for every angle, `from_axis_rotation` on
the zero axis completes without error and yields a non-unit quaternion" is
false: at angle π it raises the divide-by-zero error, and at angle 0 it
completes with `(1,0,0,0)`, whose magnitude is exactly 1 (a unit
quaternion). -/
theorem C6_counterexample :
    Quat.from_axis_rotation ⟨0, 0, 0⟩ Real.pi = .error "Cannot divide by 0." ∧
    Quat.from_axis_rotation ⟨0, 0, 0⟩ 0 = .ok ⟨1, 0, 0, 0⟩ ∧
    Quat.mag ⟨1, 0, 0, 0⟩ = 1 := by
  refine ⟨?_, ?_, ?_⟩
  · rw [Quat.from_axis_rotation_zero_axis,
      Quat.normalize_scalar_err _ Real.cos_pi_div_two]
  · have h1 : Real.cos ((0 : ℝ) / 2) = 1 := by norm_num
    rw [Quat.from_axis_rotation_zero_axis,
      Quat.normalize_scalar_ok _ (by rw [h1]; exact one_ne_zero), h1]
    norm_num
  · rw [Quat.mag, show (1 : ℝ) * 1 + 0 * 0 + 0 * 0 + 0 * 0 = 1 by ring,
      Real.sqrt_one]

/-- C6 (amended): `from_axis_rotation` on the zero axis raises the
divide-by-zero error when `cos(angle/2) = 0`, and otherwise completes,
returning the degenerate scalar quaternion `(cos(angle/2)/|cos(angle/2)|,
0, 0, 0)` — which the defensive re-normalization makes a unit quaternion,
not a non-unit one. The zero axis itself is swallowed silently by
`Vector.norm`. -/
theorem C6_from_axis_rotation_zero_axis (angle : ℝ) :
    (Real.cos (angle / 2) = 0 →
      Quat.from_axis_rotation ⟨0, 0, 0⟩ angle =
        .error "Cannot divide by 0.") ∧
    (Real.cos (angle / 2) ≠ 0 →
      Quat.from_axis_rotation ⟨0, 0, 0⟩ angle =
        .ok ⟨Real.cos (angle / 2) / |Real.cos (angle / 2)|, 0, 0, 0⟩ ∧
      Quat.mag ⟨Real.cos (angle / 2) / |Real.cos (angle / 2)|, 0, 0, 0⟩ = 1) := by
  refine ⟨fun hc => ?_, fun hc => ⟨?_, Quat.mag_sign _ hc⟩⟩
  · rw [Quat.from_axis_rotation_zero_axis, Quat.normalize_scalar_err _ hc]
  · rw [Quat.from_axis_rotation_zero_axis, Quat.normalize_scalar_ok _ hc]

/-- C6 witness: at angle 0 the cosine is nonzero and the degenerate result
is produced with magnitude 1. -/
theorem C6_from_axis_rotation_zero_axis_witness :
    Real.cos ((0 : ℝ) / 2) ≠ 0 ∧
      (Quat.from_axis_rotation ⟨0, 0, 0⟩ 0 =
        .ok ⟨Real.cos ((0 : ℝ) / 2) / |Real.cos ((0 : ℝ) / 2)|, 0, 0, 0⟩ ∧
      Quat.mag ⟨Real.cos ((0 : ℝ) / 2) / |Real.cos ((0 : ℝ) / 2)|,
        0, 0, 0⟩ = 1) := by
  have hc : Real.cos ((0 : ℝ) / 2) ≠ 0 := by norm_num
  exact ⟨hc, (C6_from_axis_rotation_zero_axis 0).2 hc⟩

/-- C7 counterexample: the claim "rotating about the zero axis yields an
undefined (NaN) result for every vector and angle" is false: at
`v = (1,2,3)` and angle 0 the rotation completes with the well-defined
value `(1,2,3)`, the input vector unchanged. -/
theorem C7_counterexample :
    Vec3.rotate_axis ⟨1, 2, 3⟩ ⟨0, 0, 0⟩ 0 = .ok ⟨1, 2, 3⟩ :=
  Vec3.rotate_axis_zero_axis_ok ⟨1, 2, 3⟩ 0 (by norm_num)

/-- C7 (amended): rotating about the zero axis never produces an undefined
component in the real-number model: when `cos(angle/2) = 0` the call raises
the divide-by-zero error, and otherwise it returns the input vector
unchanged (the degenerate quaternion built from the zero axis normalizes to
`(±1,0,0,0)`, which acts as the identity rotation). -/
theorem C7_rotate_axis_zero_axis (v : Vec3) (angle : ℝ) :
    (Real.cos (angle / 2) = 0 →
      v.rotate_axis ⟨0, 0, 0⟩ angle = .error "Cannot divide by 0.") ∧
    (Real.cos (angle / 2) ≠ 0 →
      v.rotate_axis ⟨0, 0, 0⟩ angle = .ok v) :=
  ⟨fun hc => v.rotate_axis_zero_axis_err angle hc,
   fun hc => v.rotate_axis_zero_axis_ok angle hc⟩

/-- C7 witness: at `v = (0,0,1)` and angle 0 the cosine is nonzero and the
rotation returns the vector unchanged. -/
theorem C7_rotate_axis_zero_axis_witness :
    Real.cos ((0 : ℝ) / 2) ≠ 0 ∧
      Vec3.rotate_axis ⟨0, 0, 1⟩ ⟨0, 0, 0⟩ 0 = .ok ⟨0, 0, 1⟩ := by
  have hc : Real.cos ((0 : ℝ) / 2) ≠ 0 := by norm_num
  exact ⟨hc, (C7_rotate_axis_zero_axis ⟨0, 0, 1⟩ 0).2 hc⟩

/-- C9: for distinct `a` and `b`, `distance_from_line` computes exactly the
perpendicular distance from the point to the infinite line through `a` and
`b` (the cross-product formula), the radicand clamp being inert; and the
concrete scenario `(0,0,1)` against the line through the origin and
`(1,0,0)` gives 1. -/
theorem C9_distance_from_line (p a b : Vec3) (h : a ≠ b) :
    p.distance_from_line a b = perp_dist_spec p a b ∧
    Vec3.distance_from_line ⟨0, 0, 1⟩ ⟨0, 0, 0⟩ ⟨1, 0, 0⟩ = 1 := by
  constructor
  · rw [perp_dist_spec, Vec3.mag_sub_comm a b]
    simp only [Vec3.distance_from_line, Vec3.mag, Vec3.sub, Vec3.add, Vec3.neg,
      Vec3.cross]
    exact dist_core _ _ _ _
      ((p.x + -a.x) * (b.x + -a.x) + (p.y + -a.y) * (b.y + -a.y) +
        (p.z + -a.z) * (b.z + -a.z))
      (add_nonneg (add_nonneg (mul_self_nonneg _) (mul_self_nonneg _))
        (mul_self_nonneg _))
      (add_nonneg (add_nonneg (mul_self_nonneg _) (mul_self_nonneg _))
        (mul_self_nonneg _))
      (add_nonneg (add_nonneg (mul_self_nonneg _) (mul_self_nonneg _))
        (mul_self_nonneg _))
      (a.sub_sumsq_ne_zero b h)
      (add_nonneg (add_nonneg (mul_self_nonneg _) (mul_self_nonneg _))
        (mul_self_nonneg _))
      (by ring) (by ring)
  · norm_num [Vec3.distance_from_line, Vec3.sub, Vec3.add, Vec3.neg, Vec3.mag]

/-- C9 witness: at the concrete distinct points `(0,0,0)` and `(1,0,0)` the
code's distance agrees with the perpendicular-distance formula. -/
theorem C9_distance_from_line_witness :
    (⟨0, 0, 0⟩ : Vec3) ≠ ⟨1, 0, 0⟩ ∧
      Vec3.distance_from_line ⟨0, 0, 1⟩ ⟨0, 0, 0⟩ ⟨1, 0, 0⟩ =
        perp_dist_spec ⟨0, 0, 1⟩ ⟨0, 0, 0⟩ ⟨1, 0, 0⟩ := by
  have hne : (⟨0, 0, 0⟩ : Vec3) ≠ ⟨1, 0, 0⟩ := by
    intro h0
    have := congrArg Vec3.x h0
    norm_num at this
  exact ⟨hne, (C9_distance_from_line ⟨0, 0, 1⟩ ⟨0, 0, 0⟩ ⟨1, 0, 0⟩ hne).1⟩

/-- C10: `Vector.project_2d` always succeeds and the returned vector has
z component exactly 0, for all inputs. -/
theorem C10_project_2d_z_zero (v origin normal y_axis : Vec3) :
    ∃ w, v.project_2d origin normal y_axis = Except.ok w ∧ w.z = 0 := by
  have hc : Real.cos (Real.pi / 2 / 2) ≠ 0 := by
    rw [show Real.pi / 2 / 2 = Real.pi / 4 from by ring, Real.cos_pi_div_four]
    positivity
  obtain ⟨r, hr⟩ : ∃ r, y_axis.rotate_axis normal (Real.pi / 2) = .ok r := by
    by_cases hm : normal.mag = 0
    · rw [normal.eq_zero_of_mag_eq_zero hm]
      exact ⟨y_axis, y_axis.rotate_axis_zero_axis_ok _ hc⟩
    · have hu := normal.norm_sumsq hm
      have hq : Quat.normSq ⟨Real.cos (Real.pi / 2 / 2),
          normal.norm.x * Real.sin (Real.pi / 2 / 2),
          normal.norm.y * Real.sin (Real.pi / 2 / 2),
          normal.norm.z * Real.sin (Real.pi / 2 / 2)⟩ = 1 := by
        simp only [Quat.normSq]
        have h2 := Real.sin_sq_add_cos_sq (Real.pi / 2 / 2)
        linear_combination
          (Real.sin (Real.pi / 2 / 2) * Real.sin (Real.pi / 2 / 2)) * hu + h2
      exact ⟨_, (y_axis.rotate_axis_ok _ _ _
        (Quat.from_axis_eq normal (Real.pi / 2) hm)).trans
        (y_axis.quaternion_rotate_unit _ hq)⟩
  exact ⟨_, v.project_2d_ok origin normal y_axis r hr, rfl⟩

end VMath
